import Mathlib

/-!
Verification of the mkfs.ubifs image-assembly pipeline (mtd-utils).

This file gives a shallow embedding, in Lean 4, of the parts of
ubifs-utils/mkfs.ubifs/mkfs.ubifs.c (and of the compressor front-end in
ubifs-utils' compr.c) that the checked properties are about, and proves or
refutes each property.

Conventions of the embedding:
- C machine integers are modelled as Nat (unsigned) or Int (where a signed
  comparison or subtraction matters); explicit reductions mod 2^w appear
  only where overflow is relevant.
- Byte buffers are modelled as List Nat, each element a byte value.
- Functions of mkfs.ubifs.c are translated one-to-one and keep their C
  names.  Functions that live in other files of the repository (libubifs,
  key.h, the libc qsort) are modelled from the specification document and
  are marked as such in their doc comments.
-/

/-! ## Constants of the UBIFS on-flash format -/

/-- UBIFS node magic number, from the on-flash format. -/
def UBIFS_NODE_MAGIC : Nat := 0x06101831

/-- Size of the common node header (struct ubifs_ch), in bytes. -/
def UBIFS_CH_SZ : Nat := 24

/-- Size of an inode node without inline data (struct ubifs_ino_node). -/
def UBIFS_INO_NODE_SZ : Nat := 160

/-- Size of a directory-entry node without the name (struct ubifs_dent_node). -/
def UBIFS_DENT_NODE_SZ : Nat := 56

/-- Size of the master node (struct ubifs_mst_node). -/
def UBIFS_MST_NODE_SZ : Nat := 512

/-- LEB number of the first master-node copy. -/
def UBIFS_MST_LNUM : Nat := 1

/-- Inputs shorter than this many bytes are never compressed. -/
def UBIFS_MIN_COMPR_LEN : Nat := 128

/-- The ALIGN(x, a) macro for a positive alignment a: round x up to the next
multiple of a.  The C macro uses bit masking and therefore requires a to be a
power of two; on such a this division form agrees with it. -/
def ALIGN (x a : Nat) : Nat := (x + a - 1) / a * a

/-! ## The write head (mkfs.ubifs.c: head_lnum, head_offs, head_flags,
set_lprops, flush_nodes, reserve_space)

The geometry fields used by the head are collected in a small record standing
for the used part of struct ubifs_info. -/

/-- Geometry parameters of the build (the fields of struct ubifs_info that
the write head consults). -/
structure Geometry where
  leb_size : Nat
  min_io_size : Nat
deriving Repr, DecidableEq

/-- State owned by the write head: the cursor (head_lnum, head_offs), the
current LEB flags, and the list of (lnum, free-determining offset, flags)
records handed to set_lprops by flushes, most recent first. -/
structure HeadState where
  head_lnum : Nat
  head_offs : Nat
  head_flags : Nat
  lprops : List (Nat × Nat × Nat)
deriving Repr, DecidableEq

/-- Translation of flush_nodes (mkfs.ubifs.c).  When head_offs is zero the
function returns immediately without writing anything and without moving the
head; otherwise it pads and writes the current LEB, records its properties
via set_lprops, and moves the head to the start of the next LEB. -/
def flush_nodes (s : HeadState) : HeadState :=
  if s.head_offs = 0 then s
  else
    { head_lnum := s.head_lnum + 1
      head_offs := 0
      head_flags := s.head_flags
      lprops := (s.head_lnum, s.head_offs, s.head_flags) :: s.lprops }

/-- Translation of reserve_space (mkfs.ubifs.c).  The length comparison is
done on Int because the C code compares signed ints (len > leb_size -
head_offs).  Returns the (lnum, offs) written through the out parameters,
together with the new head state. -/
def reserve_space (c : Geometry) (len : Nat) (s : HeadState) :
    (Nat × Nat) × HeadState :=
  let s1 := if (len : Int) > (c.leb_size : Int) - (s.head_offs : Int)
            then flush_nodes s else s
  ((s1.head_lnum, s1.head_offs),
   { s1 with head_offs := s1.head_offs + ALIGN len 8 })

/-! ## Claims C4 and C5: write-head flush and reservation -/

/-- C4, counterexample.  The claim states that an explicit flush always
advances the head LEB number by exactly one, including when the head offset
is 0.  At the concrete state (head_lnum = 17, head_offs = 0) flush_nodes
returns immediately (the initial `if (!head_offs) return 0;`), so the head
LEB number stays 17 instead of becoming 18. -/
theorem flush_nodes_zero_offs_counterexample :
    (flush_nodes ⟨17, 0, 0, []⟩).head_lnum = 17 ∧
    (flush_nodes ⟨17, 0, 0, []⟩).head_lnum ≠ 17 + 1 := by
  constructor
  · rfl
  · decide

/-- C4, amended claim: an explicit flush advances the head to
(lnum + 1, 0) — recording the flushed LEB in the properties ledger —
whenever the head offset is nonzero at the time of the flush; when the head
offset is 0 the flush is a no-op and the head is unchanged. -/
theorem flush_nodes_advances_head (s : HeadState) :
    (s.head_offs ≠ 0 →
      flush_nodes s =
        { head_lnum := s.head_lnum + 1
          head_offs := 0
          head_flags := s.head_flags
          lprops := (s.head_lnum, s.head_offs, s.head_flags) :: s.lprops }) ∧
    (s.head_offs = 0 → flush_nodes s = s) := by
  constructor
  · intro h
    simp [flush_nodes, h]
  · intro h
    simp [flush_nodes, h]

/-- C4, witness: the amended theorem applied at the concrete state
(head_lnum = 3, head_offs = 16). -/
theorem flush_nodes_advances_head_witness :
    (16 : Nat) ≠ 0 ∧ flush_nodes ⟨3, 16, 7, []⟩ = ⟨4, 0, 7, [(3, 16, 7)]⟩ :=
  ⟨by decide, (flush_nodes_advances_head ⟨3, 16, 7, []⟩).1 (by decide)⟩

/-- C5: reserve_space(n) flushes the current LEB first exactly when n
exceeds leb_size minus the current head offset, then returns the current
head position (lnum, offs) and advances the head offset by ALIGN(n, 8). -/
theorem reserve_space_flush_then_allocate (c : Geometry) (len : Nat)
    (s : HeadState) :
    ((len : Int) ≤ (c.leb_size : Int) - (s.head_offs : Int) →
      reserve_space c len s =
        ((s.head_lnum, s.head_offs),
         { s with head_offs := s.head_offs + ALIGN len 8 })) ∧
    ((len : Int) > (c.leb_size : Int) - (s.head_offs : Int) →
      reserve_space c len s =
        (((flush_nodes s).head_lnum, (flush_nodes s).head_offs),
         { flush_nodes s with
             head_offs := (flush_nodes s).head_offs + ALIGN len 8 })) := by
  constructor
  · intro h
    simp [reserve_space, not_lt.mpr h]
  · intro h
    simp [reserve_space, h]

/-- C5, witness: both cases of the theorem at concrete inputs.  With
leb_size = 64: reserving 16 bytes at offset 40 fits and allocates in place;
reserving 16 bytes at offset 60 does not fit, so the LEB is flushed and the
reservation lands at the start of the next LEB. -/
theorem reserve_space_flush_then_allocate_witness :
    ((16 : Int) ≤ (64 : Int) - (40 : Int) ∧
      reserve_space ⟨64, 8⟩ 16 ⟨5, 40, 0, []⟩ =
        ((5, 40), ⟨5, 56, 0, []⟩)) ∧
    ((16 : Int) > (64 : Int) - (60 : Int) ∧
      reserve_space ⟨64, 8⟩ 16 ⟨5, 60, 0, []⟩ =
        ((6, 0), ⟨6, 16, 0, [(5, 60, 0)]⟩)) := by
  refine ⟨⟨by decide, ?_⟩, ⟨by decide, ?_⟩⟩
  · exact (reserve_space_flush_then_allocate ⟨64, 8⟩ 16 ⟨5, 40, 0, []⟩).1
      (by decide)
  · exact (reserve_space_flush_then_allocate ⟨64, 8⟩ 16 ⟨5, 60, 0, []⟩).2
      (by decide)

/-! ## The compressor front-end (compr.c: favor_lzo_compress, compress_data)

The compression backends themselves (lzo1x_999_compress, zlib deflate, zstd)
are external libraries; they are modelled as parameters: an Option (List Nat)
that is some output buffer on success and none on failure.  The embedding
models the fully featured build (WITH_LZO, WITH_ZLIB and WITH_ZSTD all
defined), which is the build the favor_lzo code path exists in. -/

/-- The UBIFS compression types (UBIFS_COMPR_NONE, _LZO, _ZLIB, _ZSTD). -/
inductive UbifsCompr
  | compr_none
  | compr_lzo
  | compr_zlib
  | compr_zstd
deriving Repr, DecidableEq

/-- Translation of favor_lzo_compress (compr.c).  Both compressors are run;
if both fail the function fails (C return -1, modelled as none).  If both
succeed, LZO is chosen when its output is no longer than zlib's; otherwise
the C code computes percent = (double)zlib_len / (double)lzo_len * 100 and
chooses LZO when percent > 100 - favor_percent, zlib when percent is less
than or equal.  The double arithmetic is modelled by exact rational
arithmetic; concrete counterexamples below use only values at which every
double operation is exact, so the model and the C agree there. -/
def favor_lzo_compress (favor_percent : Int)
    (lzoRes zlibRes : Option (List Nat)) : Option (List Nat × UbifsCompr) :=
  match lzoRes, zlibRes with
  | none, none => none
  | some lzo_out, some zlib_out =>
      if lzo_out.length ≤ zlib_out.length then some (lzo_out, .compr_lzo)
      else
        let percent : ℚ :=
          (zlib_out.length : ℚ) / (lzo_out.length : ℚ) * 100
        if percent > ((100 - favor_percent : Int) : ℚ) then
          some (lzo_out, .compr_lzo)
        else
          some (zlib_out, .compr_zlib)
  | none, some zlib_out => some (zlib_out, .compr_zlib)
  | some lzo_out, none => some (lzo_out, .compr_lzo)

/-- Translation of compress_data (compr.c).  When the input is shorter than
UBIFS_MIN_COMPR_LEN it is copied verbatim (no_compress) and the returned
type is UBIFS_COMPR_NONE.  Otherwise the favor_lzo pair or the single
requested backend runs; on backend failure, or when the compressed output
is not strictly smaller than the input, the input is again copied verbatim
with type UBIFS_COMPR_NONE. -/
def compress_data (favor_lzo : Bool) (favor_percent : Int)
    (lzoRes zlibRes zstdRes : Option (List Nat))
    (in_buf : List Nat) (type : UbifsCompr) : List Nat × UbifsCompr :=
  if in_buf.length < UBIFS_MIN_COMPR_LEN then (in_buf, .compr_none)
  else
    let attempt : Option (List Nat × UbifsCompr) :=
      if favor_lzo then favor_lzo_compress favor_percent lzoRes zlibRes
      else
        match type with
        | .compr_lzo => lzoRes.map (fun o => (o, .compr_lzo))
        | .compr_zlib => zlibRes.map (fun o => (o, .compr_zlib))
        | .compr_zstd => zstdRes.map (fun o => (o, .compr_zstd))
        | .compr_none => none
    match attempt with
    | none => (in_buf, .compr_none)
    | some (out, t) =>
        if out.length ≥ in_buf.length then (in_buf, .compr_none) else (out, t)

/-! ## Claim C7: the favor_lzo selection rule -/

/-- C7, counterexample.  With favor_percent = 50, an LZO output of 2 bytes
and a zlib output of 1 byte, the C code computes percent = 1/2 * 100 = 50
(every double operation exact), 50 > 100 - 50 is false, so ZLIB is selected;
but the claim's integer rule zlib_len * 100 < (100 - favor_percent) *
lzo_len reads 100 < 100 and selects LZO.  The code's boundary comparison is
inclusive where the claim's is strict. -/
theorem favor_lzo_boundary_counterexample :
    favor_lzo_compress 50 (some (List.replicate 2 0))
        (some (List.replicate 1 0)) =
      some (List.replicate 1 0, .compr_zlib) ∧
    ¬ ((1 * 100 : Int) < (100 - 50) * 2) := by
  constructor
  · norm_num [favor_lzo_compress]
  · decide

/-- C7, amended claim: in favor_lzo mode, when both compressors succeed,
ZLIB is selected exactly when its output is strictly smaller than LZO's and
zlib_len * 100 is less than OR EQUAL to (100 - favor_percent) * lzo_len
(integer arithmetic; the code's floating-point comparison agrees with this
rational form); otherwise LZO is selected. -/
theorem favor_lzo_selects (favor_percent : Int) (lzo_out zlib_out : List Nat) :
    favor_lzo_compress favor_percent (some lzo_out) (some zlib_out) =
      (if zlib_out.length < lzo_out.length ∧
          (zlib_out.length * 100 : Int) ≤
            (100 - favor_percent) * lzo_out.length
       then some (zlib_out, .compr_zlib)
       else some (lzo_out, .compr_lzo)) := by
  by_cases hle : lzo_out.length ≤ zlib_out.length
  · have : ¬ (zlib_out.length < lzo_out.length ∧
        (zlib_out.length * 100 : Int) ≤
          (100 - favor_percent) * lzo_out.length) := by
      rintro ⟨h, -⟩
      exact absurd hle (not_le.mpr h)
    simp [favor_lzo_compress, hle, this]
  · have hlt : zlib_out.length < lzo_out.length := not_le.mp hle
    have hlpos : (0 : ℚ) < (lzo_out.length : ℚ) := by
      have : 0 < lzo_out.length := Nat.lt_of_le_of_lt (Nat.zero_le _) hlt
      exact_mod_cast this
    have key : ((zlib_out.length : ℚ) / (lzo_out.length : ℚ) * 100 ≤
        100 - (favor_percent : ℚ)) ↔
        ((zlib_out.length * 100 : Int) ≤
          (100 - favor_percent) * lzo_out.length) := by
      rw [div_mul_eq_mul_div, div_le_iff₀ hlpos]
      constructor
      · intro h
        exact_mod_cast h
      · intro h
        exact_mod_cast h
    by_cases hsel : ((zlib_out.length : ℚ) / (lzo_out.length : ℚ) * 100 ≤
        100 - (favor_percent : ℚ))
    · have h2 : (zlib_out.length * 100 : Int) ≤
          (100 - favor_percent) * lzo_out.length := key.mp hsel
      simp only [favor_lzo_compress, hle, if_false, hlt, h2, and_self,
        if_true]
      rw [if_neg]
      push_cast
      exact not_lt.mpr hsel
    · have h2 : ¬ ((zlib_out.length * 100 : Int) ≤
          (100 - favor_percent) * lzo_out.length) := fun h => hsel (key.mpr h)
      have hcond : ¬ (zlib_out.length < lzo_out.length ∧
          (zlib_out.length * 100 : Int) ≤
            (100 - favor_percent) * lzo_out.length) := by
        rintro ⟨-, h⟩
        exact h2 h
      have hgt : ((zlib_out.length : ℚ) / (lzo_out.length : ℚ) * 100 >
          100 - (favor_percent : ℚ)) := not_le.mp hsel
      simp only [favor_lzo_compress, hle, if_false, hcond]
      rw [if_pos]
      push_cast
      exact hgt

/-! ## Claim C10: short inputs are never compressed -/

/-- C10: for every input shorter than UBIFS_MIN_COMPR_LEN bytes,
compress_data copies the input verbatim (no_compress: output equals input,
out_len equals in_len) and returns UBIFS_COMPR_NONE, regardless of the
requested type, the favor_lzo setting, and whatever the backends would have
produced. -/
theorem compress_data_short_input (favor_lzo : Bool) (favor_percent : Int)
    (lzoRes zlibRes zstdRes : Option (List Nat)) (in_buf : List Nat)
    (type : UbifsCompr) (h : in_buf.length < UBIFS_MIN_COMPR_LEN) :
    compress_data favor_lzo favor_percent lzoRes zlibRes zstdRes in_buf type =
      (in_buf, .compr_none) := by
  simp [compress_data, h]

/-- C10, witness: a 3-byte input with favor_lzo enabled, a requested type of
ZLIB, and backends that would all "succeed" with a 1-byte output, still
comes back verbatim as UBIFS_COMPR_NONE. -/
theorem compress_data_short_input_witness :
    [10, 20, 30].length < UBIFS_MIN_COMPR_LEN ∧
    compress_data true 20 (some [7]) (some [8]) (some [9]) [10, 20, 30]
        .compr_zlib = ([10, 20, 30], .compr_none) :=
  ⟨by decide,
   compress_data_short_input true 20 (some [7]) (some [8]) (some [9])
     [10, 20, 30] .compr_zlib (by decide)⟩

/-! ## The superblock (mkfs.ubifs.c: ubifs_format_version, write_super)

Only the scalar fields that write_super computes itself are modelled; fields
that are plain copies of geometry inputs are carried through, and the
UUID/signature machinery (external) is out of the record. -/

/-- Superblock flag bits (UBIFS_FLG_*, from the on-flash format). -/
def UBIFS_FLG_BIGLPT : Nat := 0x02

/-- Flag bit: the image was built with free-space fixup requested. -/
def UBIFS_FLG_SPACE_FIXUP : Nat := 0x04

/-- Flag bit: directory entries carry a 32-bit cookie (double hash). -/
def UBIFS_FLG_DOUBLE_HASH : Nat := 0x08

/-- Flag bit: the file system contains encrypted files. -/
def UBIFS_FLG_ENCRYPTION : Nat := 0x10

/-- Flag bit: the image is authenticated. -/
def UBIFS_FLG_AUTHENTICATION : Nat := 0x20

/-- The configuration bits of struct ubifs_info that write_super and
ubifs_format_version consult. -/
structure SbConfig where
  double_hash : Bool
  encrypted : Bool
  big_lpt : Bool
  space_fixup : Bool
  authenticated : Bool
  leb_size : Nat
  min_io_size : Nat
  leb_cnt : Nat
  default_compr : UbifsCompr
deriving Repr, DecidableEq

/-- Translation of ubifs_format_version (mkfs.ubifs.c): 5 when double hash
or encryption is enabled, 4 (the default) otherwise. -/
def ubifs_format_version (c : SbConfig) : Nat :=
  if c.double_hash || c.encrypted then 5 else 4

/-- The superblock-node fields that write_super computes (struct
ubifs_sb_node, the modelled subset). -/
structure SbNode where
  min_io_size : Nat
  leb_size : Nat
  leb_cnt : Nat
  fmt_version : Nat
  default_compr : UbifsCompr
  flags : Nat
deriving Repr, DecidableEq

/-- Translation of write_super (mkfs.ubifs.c), restricted to the fields the
model carries: fmt_version is taken from ubifs_format_version and the flag
word accumulates the five conditional UBIFS_FLG_* bits in source order. -/
def write_super_node (c : SbConfig) : SbNode :=
  { min_io_size := c.min_io_size
    leb_size := c.leb_size
    leb_cnt := c.leb_cnt
    fmt_version := ubifs_format_version c
    default_compr := c.default_compr
    flags :=
      (((((0 : Nat)
        ||| (if c.big_lpt then UBIFS_FLG_BIGLPT else 0))
        ||| (if c.space_fixup then UBIFS_FLG_SPACE_FIXUP else 0))
        ||| (if c.double_hash then UBIFS_FLG_DOUBLE_HASH else 0))
        ||| (if c.encrypted then UBIFS_FLG_ENCRYPTION else 0))
        ||| (if c.authenticated then UBIFS_FLG_AUTHENTICATION else 0) }

/-! ## Claim C8: fmt_version is 5 iff double hash or encryption -/

/-- C8: the fmt_version field written into the superblock equals 5 exactly
when double_hash or encryption is enabled, and equals 4 exactly otherwise. -/
theorem write_super_fmt_version (c : SbConfig) :
    ((write_super_node c).fmt_version = 5 ↔
      (c.double_hash = true ∨ c.encrypted = true)) ∧
    ((write_super_node c).fmt_version = 4 ↔
      ¬ (c.double_hash = true ∨ c.encrypted = true)) := by
  rcases c with ⟨dh, enc, bl, sf, au, ls, mi, lc, dc⟩
  cases dh <;> cases enc <;>
    simp [write_super_node, ubifs_format_version]

/-! ## Keys and the index leaf list (key.h model; mkfs.ubifs.c: add_to_index,
add_node) -/

/-- The UBIFS key types (UBIFS_INO_KEY, UBIFS_DATA_KEY, UBIFS_DENT_KEY,
UBIFS_XENT_KEY). -/
inductive KeyType
  | ino_key
  | data_key
  | dent_key
  | xent_key
deriving Repr, DecidableEq

/-- Modelled from the spec: the 64-bit UBIFS compound key of key.h (which is
not part of the analysed sources) is a triple of inode number, key type and
per-type discriminant (name hash or block number), ordered lexicographically
with numeric compare. -/
structure UbifsKey where
  inum : Nat
  ktype : KeyType
  hval : Nat
deriving Repr, DecidableEq

/-- Modelled from the spec: key_type extracts the type bits of a key. -/
def key_type (k : UbifsKey) : KeyType := k.ktype

/-- An entry of the index leaf list (struct idx_entry): key, the name kept
for sort tiebreaks (NULL for nodes that carry no name), and the node's
on-flash position.  The content hash is not modelled. -/
structure IdxEntry where
  key : UbifsKey
  name : Option (List Nat)
  name_len : Nat
  lnum : Nat
  offs : Nat
  len : Nat
deriving Repr, DecidableEq

/-- Translation of add_to_index (mkfs.ubifs.c): append one entry at the tail
of the index leaf list. -/
def add_to_index (key : UbifsKey) (name : Option (List Nat)) (name_len : Nat)
    (lnum offs len : Nat) (l : List IdxEntry) : List IdxEntry :=
  l ++ [⟨key, name, name_len, lnum, offs, len⟩]

/-- The builder state touched by add_node: the write head, the index leaf
list, and the node sequence counter c->max_sqnum (bumped by
ubifs_prepare_node, modelled from the spec: sqnum = ++max_sqnum). -/
structure BuildState where
  head : HeadState
  idx_list : List IdxEntry
  max_sqnum : Nat
deriving Repr, DecidableEq

/-- The successful tail of add_node (everything after the name check):
prepare the node (assigning the next sqnum), reserve space on the head, copy
the node bytes at the reserved (lnum, offs), and record the key and position
in the index leaf list. -/
def add_node_rest (c : Geometry) (s : BuildState) (key : UbifsKey)
    (name : Option (List Nat)) (name_len : Nat) (len : Nat) :
    BuildState × Except String Unit :=
  let sq := s.max_sqnum + 1
  let r := reserve_space c len s.head
  ({ head := r.2
     idx_list := add_to_index key name name_len r.1.1 r.1.2 len s.idx_list
     max_sqnum := sq }, .ok ())

/-- Translation of add_node (mkfs.ubifs.c).  A dentry or xattr-entry key
must come with a name and every other key type must come without one; a
violation returns an error message before ubifs_prepare_node,
reserve_space and add_to_index run, so the state is returned untouched. -/
def add_node (c : Geometry) (s : BuildState) (key : UbifsKey)
    (name : Option (List Nat)) (name_len : Nat) (len : Nat) :
    BuildState × Except String Unit :=
  if key_type key = .dent_key ∨ key_type key = .xent_key then
    match name with
    | none => (s, .error "Directory entry or xattr without name!")
    | some _ => add_node_rest c s key name name_len len
  else
    match name with
    | some _ => (s, .error "Name given for non dir/xattr node!")
    | none => add_node_rest c s key name name_len len

/-! ## Claim C9: add_node requires a name exactly for dentry/xattr keys -/

/-- C9: add_node fails exactly when a dentry or xattr-entry key comes
without a name or a key of any other type comes with one, and a failing call
returns the builder state unchanged: no sqnum is consumed, no space is
reserved, nothing is written and nothing is added to the index leaf list.
A non-failing call succeeds. -/
theorem add_node_name_discipline (c : Geometry) (s : BuildState)
    (key : UbifsKey) (name : Option (List Nat)) (name_len len : Nat) :
    (((add_node c s key name name_len len).2 ≠ .ok ()) ↔
      (((key_type key = .dent_key ∨ key_type key = .xent_key) ∧ name = none) ∨
       (¬ (key_type key = .dent_key ∨ key_type key = .xent_key) ∧
         name ≠ none))) ∧
    ((add_node c s key name name_len len).2 ≠ .ok () →
      (add_node c s key name name_len len).1 = s) := by
  by_cases hk : key_type key = .dent_key ∨ key_type key = .xent_key
  · cases name with
    | none => simp [add_node, hk]
    | some n => simp [add_node, hk, add_node_rest]
  · cases name with
    | none => simp [add_node, hk, add_node_rest]
    | some n => simp [add_node, hk]

/-- C9, witness: a dentry key without a name at a concrete state is refused
with the state unchanged. -/
theorem add_node_name_discipline_witness :
    (add_node ⟨64, 8⟩ ⟨⟨0, 0, 0, []⟩, [], 0⟩ ⟨1, .dent_key, 5⟩ none 0 56).2 ≠
        Except.ok () ∧
    (add_node ⟨64, 8⟩ ⟨⟨0, 0, 0, []⟩, [], 0⟩ ⟨1, .dent_key, 5⟩ none 0 56).1 =
        ⟨⟨0, 0, 0, []⟩, [], 0⟩ := by
  have h := add_node_name_discipline ⟨64, 8⟩ ⟨⟨0, 0, 0, []⟩, [], 0⟩
    ⟨1, .dent_key, 5⟩ none 0 56
  have hf : (add_node ⟨64, 8⟩ ⟨⟨0, 0, 0, []⟩, [], 0⟩ ⟨1, .dent_key, 5⟩
      none 0 56).2 ≠ Except.ok () := h.1.mpr (by decide)
  exact ⟨hf, h.2 hf⟩

/-! ## The directory walk (mkfs.ubifs.c: add_directory, add_dir_inode)

The walk is modelled over an abstract source tree: an entry is either a
non-directory (add_non_dir) or a directory with its host entries and the
entries the device table injects into it.  Only the name length of each
entry matters for the accounting (the build without encryption, where
add_dent_node's kname_len equals the entry's name length).  The model records
the order of the emitted nodes: for a non-directory child the child's inode
then its dentry; for a directory child the whole recursive emission of the
child then its dentry; finally the directory's own inode, carrying the
accumulated size and nlink handed to add_dir_inode. -/

/-- An entry of the source tree: a non-directory with its name length, or a
directory with its name length, its host entries and its device-table
entries. -/
inductive FsEntry
  | file (name_len : Nat)
  | dir (name_len : Nat) (host : List FsEntry) (devtbl : List FsEntry)

/-- One emitted node, as far as the directory accounting is concerned. -/
inductive Emit
  | nondir_ino (name_len : Nat)
  | dent (name_len : Nat)
  | dir_ino (size : Nat) (nlink : Nat)
deriving Repr, DecidableEq

mutual

/-- Translation of add_directory (mkfs.ubifs.c): process the host entries,
then the device-table entries, then emit the directory's own inode through
add_dir_inode with size starting from UBIFS_INO_NODE_SZ plus one aligned
dentry size per entry, and nlink starting from 2 plus one per subdirectory. -/
def add_directory (host devtbl : List FsEntry) : List Emit :=
  let h := walk_entries host
  let d := walk_entries devtbl
  h.1 ++ d.1 ++
    [.dir_ino (UBIFS_INO_NODE_SZ + h.2.1 + d.2.1) (2 + h.2.2 + d.2.2)]
termination_by sizeOf host + sizeOf devtbl + 1
decreasing_by
  all_goals simp_wf
  all_goals omega

/-- One loop of add_directory over a list of entries.  Returns the emitted
nodes, the total directory-size contribution
(ALIGN(UBIFS_DENT_NODE_SZ + name_len + 1, 8) per entry, accumulated after
add_dent_node) and the number of subdirectories (the nlink increments). -/
def walk_entries (es : List FsEntry) : List Emit × Nat × Nat :=
  match es with
  | [] => ([], 0, 0)
  | .file klen :: rest =>
      let r := walk_entries rest
      (.nondir_ino klen :: .dent klen :: r.1,
       ALIGN (UBIFS_DENT_NODE_SZ + klen + 1) 8 + r.2.1, r.2.2)
  | .dir klen h d :: rest =>
      let r := walk_entries rest
      (add_directory h d ++ .dent klen :: r.1,
       ALIGN (UBIFS_DENT_NODE_SZ + klen + 1) 8 + r.2.1, 1 + r.2.2)
termination_by sizeOf es
decreasing_by
  all_goals simp_wf
  all_goals omega

end

/-- Specification-side total of the aligned dentry sizes of a list of
entries. -/
def entSizeSum (es : List FsEntry) : Nat :=
  (es.map fun e =>
    match e with
    | .file klen => ALIGN (UBIFS_DENT_NODE_SZ + klen + 1) 8
    | .dir klen _ _ => ALIGN (UBIFS_DENT_NODE_SZ + klen + 1) 8).sum

/-- Specification-side count of the subdirectories in a list of entries. -/
def entDirCount (es : List FsEntry) : Nat :=
  (es.filter fun e =>
    match e with
    | .file _ => false
    | .dir _ _ _ => true).length

/-- The two accumulators of walk_entries compute entSizeSum and
entDirCount. -/
theorem walk_entries_accum (es : List FsEntry) :
    (walk_entries es).2 = (entSizeSum es, entDirCount es) := by
  induction es with
  | nil =>
      rw [walk_entries]
      simp [entSizeSum, entDirCount]
  | cons e rest ih =>
      cases e with
      | file klen =>
          rw [walk_entries]
          simp [entSizeSum, entDirCount, ih]
      | dir klen h d =>
          rw [walk_entries]
          simp [entSizeSum, entDirCount, ih]
          omega

/-! ## Claim C3: directory size and nlink accounting -/

/-- C3, counterexample.  For a directory with no entries the claim's size
(the sum over the directory's entries, which is empty, hence 0) disagrees
with the code: add_directory initializes size to UBIFS_INO_NODE_SZ = 160
before the loops, so the emitted directory inode carries size 160, not 0.
The nlink value 2 matches the claim. -/
theorem add_directory_size_counterexample :
    add_directory [] [] = [Emit.dir_ino 160 2] ∧
    entSizeSum ([] ++ []) = 0 ∧ (160 : Nat) ≠ 0 := by
  refine ⟨?_, by simp [entSizeSum], by decide⟩
  rw [add_directory, walk_entries]
  simp [UBIFS_INO_NODE_SZ]

/-- C3, amended claim: for every directory processed by the leaf emitter,
the directory's own inode is emitted last, after the emissions of all of
its host-tree children and of its device-table-created children, with size
equal to UBIFS_INO_NODE_SZ plus the sum over the directory's entries of
ALIGN(UBIFS_DENT_NODE_SZ + name_len + 1, 8), and nlink equal to 2 plus the
number of subdirectories (device-table-created entries included). -/
theorem add_directory_accounting (host devtbl : List FsEntry) :
    add_directory host devtbl =
      (walk_entries host).1 ++ (walk_entries devtbl).1 ++
        [.dir_ino (UBIFS_INO_NODE_SZ + entSizeSum (host ++ devtbl))
                  (2 + entDirCount (host ++ devtbl))] ∧
    (add_directory host devtbl).getLast? =
      some (.dir_ino (UBIFS_INO_NODE_SZ + entSizeSum (host ++ devtbl))
                     (2 + entDirCount (host ++ devtbl))) := by
  have hsum : entSizeSum (host ++ devtbl) = entSizeSum host + entSizeSum devtbl := by
    simp [entSizeSum]
  have hcnt : entDirCount (host ++ devtbl) =
      entDirCount host + entDirCount devtbl := by
    simp [entDirCount]
  have heq : add_directory host devtbl =
      (walk_entries host).1 ++ (walk_entries devtbl).1 ++
        [.dir_ino (UBIFS_INO_NODE_SZ + entSizeSum (host ++ devtbl))
                  (2 + entDirCount (host ++ devtbl))] := by
    rw [add_directory]
    rw [walk_entries_accum host, walk_entries_accum devtbl, hsum, hcnt]
    simp [Nat.add_assoc]
  refine ⟨heq, ?_⟩
  rw [heq]
  simp

/-! ## Hard-link counting (mkfs.ubifs.c: struct inum_mapping,
lookup_inum_mapping, the nlink > 1 path of add_non_dir,
add_multi_linked_files)

The C code keeps the mappings in a 10099-bucket chained hash table; the
bucket structure only affects iteration order, which none of the checked
properties depend on, so the table is modelled as a single list of mappings
in first-occurrence order, looked up by the (dev, inum) pair exactly as the
C lookup compares im->dev and im->inum. -/

/-- One entry of the inode identity table (struct inum_mapping): the source
(dev, inum) pair, the target inode number and the accumulated link count. -/
structure InumMapping where
  dev : Nat
  inum : Nat
  use_inum : Nat
  use_nlink : Nat
deriving Repr, DecidableEq

/-- The source identity of a mapping: the (dev, inum) pair the hash table is
keyed by. -/
def imKey (im : InumMapping) : Nat × Nat := (im.dev, im.inum)

/-- Translation of the search loop of lookup_inum_mapping (mkfs.ubifs.c):
find the mapping whose dev and inum match.  (The C function also inserts a
blank entry on a miss; the insertion is part of add_non_dir_hardlink below,
where the blank entry's fields are filled in.) -/
def lookup_inum_mapping (dev inum : Nat) (tbl : List InumMapping) :
    Option InumMapping :=
  tbl.find? fun im => im.dev == dev && im.inum == inum

/-- Increment use_nlink of the first mapping matching (dev, inum), as the C
code's im->use_nlink += 1 does on the entry the lookup returned. -/
def bump_use_nlink (dev inum : Nat) : List InumMapping → List InumMapping
  | [] => []
  | im :: rest =>
      if im.dev == dev && im.inum == inum then
        { im with use_nlink := im.use_nlink + 1 } :: rest
      else
        im :: bump_use_nlink dev inum rest

/-- The state threaded through the hard-link bookkeeping: c->highest_inum
and the identity table. -/
structure LinkState where
  highest_inum : Nat
  table : List InumMapping
deriving Repr, DecidableEq

/-- Translation of one directory-walk occurrence of a host file with
st_nlink > 1 (add_directory allocates inum = ++c->highest_inum, then the
nlink > 1 branch of add_non_dir runs).  A first occurrence fills the fresh
entry: use_inum is the freshly allocated number, use_nlink becomes 1.  A
repeated occurrence returns the stored use_inum for the dentry, increments
use_nlink, and gives the unused fresh number back (c->highest_inum -= 1).
Returns the target inode number the caller's dentry will reference. -/
def add_non_dir_hardlink (s : LinkState) (dev src_inum : Nat) :
    Nat × LinkState :=
  let fresh := s.highest_inum + 1
  match lookup_inum_mapping dev src_inum s.table with
  | none =>
      (fresh,
       { highest_inum := fresh
         table := s.table ++ [⟨dev, src_inum, fresh, 1⟩] })
  | some im =>
      (im.use_inum,
       { highest_inum := fresh - 1
         table := bump_use_nlink dev src_inum s.table })

/-- The sequence of hard-link occurrences met during the tree walk, in
order: each element is the (st_dev, st_ino) pair of a host file with
st_nlink > 1.  Returns the list of target inode numbers referenced by the
emitted dentries, in order, and the final state. -/
def link_walk : LinkState → List (Nat × Nat) → List Nat × LinkState
  | s, [] => ([], s)
  | s, p :: rest =>
      let r := add_non_dir_hardlink s p.1 p.2
      let w := link_walk r.2 rest
      (r.1 :: w.1, w.2)

/-- Translation of add_multi_linked_files (mkfs.ubifs.c), restricted to the
accounting: after the walk, one inode is emitted per table entry, carrying
the entry's target inode number and its final use_nlink as the inode link
count (add_non_dir is called with nlink = im->use_nlink, which it stores
into st->st_nlink). -/
def add_multi_linked_files_emits (tbl : List InumMapping) : List (Nat × Nat) :=
  tbl.map fun im => (im.use_inum, im.use_nlink)

/-- bump_use_nlink does not change the (dev, inum) keys of the table. -/
theorem bump_use_nlink_map_key (d i : Nat) (t : List InumMapping) :
    (bump_use_nlink d i t).map imKey = t.map imKey := by
  induction t with
  | nil => rfl
  | cons im rest ih =>
      by_cases h : (im.dev == d && im.inum == i) = true
      · simp [bump_use_nlink, h, imKey]
      · simp [bump_use_nlink, h, ih]

/-- bump_use_nlink does not change the target inode numbers of the table. -/
theorem bump_use_nlink_map_use (d i : Nat) (t : List InumMapping) :
    (bump_use_nlink d i t).map InumMapping.use_inum =
      t.map InumMapping.use_inum := by
  induction t with
  | nil => rfl
  | cons im rest ih =>
      by_cases h : (im.dev == d && im.inum == i) = true
      · simp [bump_use_nlink, h]
      · simp [bump_use_nlink, h, ih]

/-- In a table with pairwise-distinct keys, every entry of the bumped table
comes from an entry of the old table with the same key and target inode
number, whose link count was incremented exactly when its key is the bumped
(dev, inum) pair. -/
theorem bump_use_nlink_spec (d i : Nat) (t : List InumMapping)
    (hnd : (t.map imKey).Nodup) :
    ∀ im2 ∈ bump_use_nlink d i t, ∃ im ∈ t,
      imKey im2 = imKey im ∧ im2.use_inum = im.use_inum ∧
      im2.use_nlink =
        im.use_nlink + (if imKey im = (d, i) then 1 else 0) := by
  induction t with
  | nil =>
      intro im2 h2
      simp [bump_use_nlink] at h2
  | cons im rest ih =>
      intro im2 h2
      rw [List.map_cons, List.nodup_cons] at hnd
      by_cases h : (im.dev == d && im.inum == i) = true
      · have hk : imKey im = (d, i) := by
          simp only [Bool.and_eq_true, beq_iff_eq] at h
          simp [imKey, h.1, h.2]
        simp only [bump_use_nlink, if_pos h, List.mem_cons] at h2
        rcases h2 with h2 | h2
        · refine ⟨im, List.mem_cons_self _ _, by simp [h2, imKey],
            by simp [h2], ?_⟩
          rw [if_pos hk]
          simp [h2]
        · refine ⟨im2, List.mem_cons_of_mem _ h2, rfl, rfl, ?_⟩
          have hne : imKey im2 ≠ (d, i) := by
            intro hc
            apply hnd.1
            rw [hk, ← hc]
            exact List.mem_map_of_mem imKey h2
          simp [hne]
      · have hk : imKey im ≠ (d, i) := by
          intro hc
          apply h
          simp only [imKey, Prod.mk.injEq] at hc
          simp [hc.1, hc.2]
        simp only [bump_use_nlink, if_neg h, List.mem_cons] at h2
        rcases h2 with h2 | h2
        · refine ⟨im, List.mem_cons_self _ _, ?_, ?_, ?_⟩ <;>
            simp [h2, hk]
        · obtain ⟨im3, hm, hkey, huse, hnl⟩ := ih hnd.2 im2 h2
          exact ⟨im3, List.mem_cons_of_mem _ hm, hkey, huse, hnl⟩

/-- The invariant of the hard-link bookkeeping, after some prefix of the
walk has been processed: processed is the list of (dev, inum) occurrence
pairs met so far, dents the target inode numbers of the dentries emitted so
far, n0 the value of c->highest_inum before the first hard-link occurrence.
It states: the counter sits exactly #table above its start (no gaps burnt);
the table is keyed without duplicates by exactly the pairs seen; the target
numbers are the consecutive range n0+1 .. n0+#table; every entry's use_nlink
counts its pair's occurrences; and the emitted dentries reference table
targets, each target exactly as often as its pair occurred. -/
def LinkInv (n0 : Nat) (processed : List (Nat × Nat)) (dents : List Nat)
    (s : LinkState) : Prop :=
  s.highest_inum = n0 + s.table.length ∧
  (s.table.map imKey).Nodup ∧
  (∀ p, p ∈ s.table.map imKey ↔ p ∈ processed) ∧
  s.table.map InumMapping.use_inum = List.range' (n0 + 1) s.table.length ∧
  (∀ im ∈ s.table, im.use_nlink = processed.count (imKey im)) ∧
  (∀ x ∈ dents, x ∈ s.table.map InumMapping.use_inum) ∧
  (∀ im ∈ s.table, dents.count im.use_inum = processed.count (imKey im))

/-- The invariant holds before the walk starts. -/
theorem LinkInv.init (n0 : Nat) : LinkInv n0 [] [] ⟨n0, []⟩ := by
  simp [LinkInv]

/-- Processing one hard-link occurrence preserves the invariant. -/
theorem LinkInv.step (n0 : Nat) (processed : List (Nat × Nat))
    (dents : List Nat) (s : LinkState) (p : Nat × Nat)
    (h : LinkInv n0 processed dents s) :
    LinkInv n0 (processed ++ [p])
      (dents ++ [(add_non_dir_hardlink s p.1 p.2).1])
      (add_non_dir_hardlink s p.1 p.2).2 := by
  obtain ⟨h1, h2, h3, h4, h5, h6, h7⟩ := h
  cases hlk : lookup_inum_mapping p.1 p.2 s.table with
  | none =>
      have hpn : p ∉ s.table.map imKey := by
        intro hmem
        obtain ⟨im, hin, hkey⟩ := List.mem_map.mp hmem
        have := List.find?_eq_none.mp hlk im hin
        apply this
        simp only [imKey, Prod.ext_iff] at hkey
        simp [hkey.1, hkey.2]
      have hppr : p ∉ processed := fun hc => hpn ((h3 p).mpr hc)
      have hcnt0 : processed.count p = 0 := List.count_eq_zero.mpr hppr
      have hfresh : s.highest_inum + 1 = n0 + 1 + s.table.length := by omega
      simp only [add_non_dir_hardlink, hlk]
      refine ⟨?_, ?_, ?_, ?_, ?_, ?_, ?_⟩
      · simp [h1]
        omega
      · simp only [List.map_append, List.map_cons, List.map_nil]
        rw [List.nodup_append]
        refine ⟨h2, List.nodup_singleton _, ?_⟩
        intro q hq hq1
        simp only [imKey, List.mem_singleton] at hq1
        rw [hq1] at hq
        exact hpn (by simpa using hq)
      · intro q
        simp only [List.map_append, List.map_cons, List.map_nil,
          List.mem_append, List.mem_singleton, imKey]
        rw [h3 q]
      · simp only [List.map_append, List.map_cons, List.map_nil,
          List.length_append, List.length_cons, List.length_nil]
        rw [h4, hfresh]
        rw [List.range'_concat]
        simp [Nat.add_comm, Nat.add_assoc, Nat.add_left_comm]
      · intro im hmem
        rcases List.mem_append.mp hmem with hmem | hmem
        · have hkne : imKey im ≠ p := by
            intro hc
            exact hpn (hc ▸ List.mem_map_of_mem imKey hmem)
          rw [List.count_append, h5 im hmem]
          simp [List.count_cons, hkne]
        · simp only [List.mem_singleton] at hmem
          rw [hmem]
          simp only [imKey]
          rw [List.count_append]
          have : (p.1, p.2) = p := rfl
          rw [this, hcnt0]
          simp [List.count_cons]
      · intro x hx
        simp only [List.map_append, List.map_cons, List.map_nil,
          List.mem_append, List.mem_singleton]
        rcases List.mem_append.mp hx with hx | hx
        · exact Or.inl (h6 x hx)
        · simp only [List.mem_singleton] at hx
          exact Or.inr hx
      · intro im hmem
        have husefresh : s.highest_inum + 1 ∉
            s.table.map InumMapping.use_inum := by
          rw [h4]
          intro hc
          have := List.mem_range'_1.mp hc
          omega
        rcases List.mem_append.mp hmem with hmem | hmem
        · have hkne : imKey im ≠ p := by
            intro hc
            exact hpn (hc ▸ List.mem_map_of_mem imKey hmem)
          have husene : im.use_inum ≠ s.highest_inum + 1 := by
            intro hc
            exact husefresh (hc ▸ List.mem_map_of_mem InumMapping.use_inum hmem)
          rw [List.count_append, List.count_append, h7 im hmem]
          simp [List.count_cons, hkne, husene]
        · simp only [List.mem_singleton] at hmem
          rw [hmem]
          simp only [imKey]
          have : (p.1, p.2) = p := rfl
          rw [List.count_append, List.count_append, this, hcnt0]
          have hdents0 : dents.count (s.highest_inum + 1) = 0 := by
            apply List.count_eq_zero.mpr
            intro hc
            exact husefresh (h6 _ hc)
          simp [hdents0, List.count_cons]
  | some im0 =>
      have him0 : im0 ∈ s.table := List.mem_of_find?_eq_some hlk
      have hkey0 : imKey im0 = p := by
        have := List.find?_some hlk
        simp only [Bool.and_eq_true, beq_iff_eq] at this
        simp only [imKey, this.1, this.2]
      have hp : p ∈ s.table.map imKey := hkey0 ▸ List.mem_map_of_mem imKey him0
      have hlen : (bump_use_nlink p.1 p.2 s.table).length = s.table.length := by
        have := congrArg List.length (bump_use_nlink_map_key p.1 p.2 s.table)
        simpa using this
      simp only [add_non_dir_hardlink, hlk]
      have huseinj := List.inj_on_of_nodup_map (f := InumMapping.use_inum)
        (l := s.table) (by rw [h4]; exact List.nodup_range' _ _)
      have hkeyinj := List.inj_on_of_nodup_map (f := imKey)
        (l := s.table) h2
      refine ⟨?_, ?_, ?_, ?_, ?_, ?_, ?_⟩
      · simp [hlen, h1]
      · rw [bump_use_nlink_map_key]
        exact h2
      · intro q
        rw [bump_use_nlink_map_key]
        rw [List.mem_append, h3 q, List.mem_singleton]
        constructor
        · intro hq
          exact Or.inl hq
        · rintro (hq | hq)
          · exact hq
          · rw [hq]
            exact (h3 p).mp hp
      · rw [bump_use_nlink_map_use, hlen]
        exact h4
      · intro im2 hmem2
        obtain ⟨im, hin, hkeq, huseq, hnleq⟩ :=
          bump_use_nlink_spec p.1 p.2 s.table h2 im2 hmem2
        have hpeq : (p.1, p.2) = p := rfl
        rw [hnleq, hkeq, List.count_append, h5 im hin]
        by_cases hkp : imKey im = p
        · rw [hpeq] at *
          simp [hkp, List.count_cons]
        · have : imKey im ≠ (p.1, p.2) := by rw [hpeq]; exact hkp
          simp [this, hkp, List.count_cons]
      · intro x hx
        rw [bump_use_nlink_map_use]
        rcases List.mem_append.mp hx with hx | hx
        · exact h6 x hx
        · simp only [List.mem_singleton] at hx
          rw [hx]
          exact List.mem_map_of_mem InumMapping.use_inum him0
      · intro im2 hmem2
        obtain ⟨im, hin, hkeq, huseq, hnleq⟩ :=
          bump_use_nlink_spec p.1 p.2 s.table h2 im2 hmem2
        have hpeq : (p.1, p.2) = p := rfl
        have hiff : im.use_inum = im0.use_inum ↔ imKey im = p := by
          constructor
          · intro hu
            have := huseinj hin him0 hu
            rw [this, hkey0]
          · intro hk
            have := hkeyinj hin him0 (hk.trans hkey0.symm)
            rw [this]
        rw [huseq, hkeq, List.count_append, List.count_append, h7 im hin]
        by_cases hkp : imKey im = p
        · have hu : im.use_inum = im0.use_inum := hiff.mpr hkp
          rw [hpeq] at *
          simp [hkp, hu, List.count_cons]
        · have hu : im.use_inum ≠ im0.use_inum := fun hc => hkp (hiff.mp hc)
          have : imKey im ≠ (p.1, p.2) := by rw [hpeq]; exact hkp
          simp [this, hu, List.count_cons]

/-- The invariant is preserved by the remainder of the walk. -/
theorem link_walk_inv (n0 : Nat) (occs : List (Nat × Nat)) :
    ∀ (processed : List (Nat × Nat)) (dents : List Nat) (s : LinkState),
      LinkInv n0 processed dents s →
      LinkInv n0 (processed ++ occs) (dents ++ (link_walk s occs).1)
        (link_walk s occs).2 := by
  induction occs with
  | nil =>
      intro pr dents s h
      simpa [link_walk] using h
  | cons p rest ih =>
      intro pr dents s h
      have h1 := LinkInv.step n0 pr dents s p h
      have h2 := ih (pr ++ [p])
        (dents ++ [(add_non_dir_hardlink s p.1 p.2).1]) _ h1
      simpa [link_walk, List.append_assoc] using h2

/-! ## Claim C6: hard-link counting, fresh/reused inode numbers, no gaps -/

/-- C6: starting from c->highest_inum = n0 with an empty identity table,
running the walk over any sequence of (device, source-inode) occurrence
pairs of files with nlink > 1 gives: the counter ends at n0 + number of
distinct pairs (each first occurrence consumed a fresh number, each repeat
reused it and rolled the counter back); the table holds exactly one entry
per distinct pair; the target inode numbers are exactly the gap-free range
n0+1 .. n0+#distinct; and after the walk add_multi_linked_files emits, per
distinct pair, a single inode whose nlink equals both the number of
occurrences of that pair and the number of emitted dentries that reference
its target inode number. -/
theorem hard_link_inum_accounting (n0 : Nat) (occs : List (Nat × Nat)) :
    (link_walk ⟨n0, []⟩ occs).2.highest_inum =
      n0 + (link_walk ⟨n0, []⟩ occs).2.table.length ∧
    ((link_walk ⟨n0, []⟩ occs).2.table.map imKey).Nodup ∧
    (∀ p, p ∈ (link_walk ⟨n0, []⟩ occs).2.table.map imKey ↔ p ∈ occs) ∧
    (link_walk ⟨n0, []⟩ occs).2.table.map InumMapping.use_inum =
      List.range' (n0 + 1) (link_walk ⟨n0, []⟩ occs).2.table.length ∧
    ((add_multi_linked_files_emits
        (link_walk ⟨n0, []⟩ occs).2.table).map Prod.fst).Nodup ∧
    (∀ im ∈ (link_walk ⟨n0, []⟩ occs).2.table,
      im.use_nlink = occs.count (imKey im) ∧
      (link_walk ⟨n0, []⟩ occs).1.count im.use_inum = occs.count (imKey im) ∧
      (im.use_inum, occs.count (imKey im)) ∈
        add_multi_linked_files_emits (link_walk ⟨n0, []⟩ occs).2.table) := by
  have h := link_walk_inv n0 occs [] [] ⟨n0, []⟩ (LinkInv.init n0)
  simp only [List.nil_append] at h
  obtain ⟨h1, h2, h3, h4, h5, h6, h7⟩ := h
  refine ⟨h1, h2, h3, h4, ?_, ?_⟩
  · have : (add_multi_linked_files_emits
        (link_walk ⟨n0, []⟩ occs).2.table).map Prod.fst =
        (link_walk ⟨n0, []⟩ occs).2.table.map InumMapping.use_inum := by
      simp [add_multi_linked_files_emits]
    rw [this, h4]
    exact List.nodup_range' _ _
  · intro im hmem
    refine ⟨h5 im hmem, h7 im hmem, ?_⟩
    have : (im.use_inum, occs.count (imKey im)) =
        (im.use_inum, im.use_nlink) := by
      rw [h5 im hmem]
    rw [this]
    exact List.mem_map_of_mem _ hmem

/-! ## The index sort (mkfs.ubifs.c: namecmp, cmp_idx, write_index)

write_index materializes the index leaf list into a pointer array in list
order and hands it to qsort with the comparator cmp_idx.  namecmp and
cmp_idx are translated below; memcmp is modelled by the sign (-1, 0, 1) of
the first byte difference, which is all qsort consumes; qsort itself (libc)
is modelled from the spec as a comparison sort driven by cmp_idx. -/

/-- The numeric value of a key type inside the packed key word, which is
what the key comparison orders by (keys_cmp is modelled from the spec:
lexicographic numeric compare of (inum, type, hash)). -/
def keyTypeIdx : KeyType → Nat
  | .ino_key => 0
  | .data_key => 1
  | .dent_key => 2
  | .xent_key => 3

/-- Modelled from the spec: keys_cmp (key.h) compares two keys numerically
as (inum, type, hash-or-block), returning -1, 0 or 1. -/
def keys_cmp (k1 k2 : UbifsKey) : Int :=
  if k1.inum < k2.inum then -1
  else if k2.inum < k1.inum then 1
  else if keyTypeIdx k1.ktype < keyTypeIdx k2.ktype then -1
  else if keyTypeIdx k2.ktype < keyTypeIdx k1.ktype then 1
  else if k1.hval < k2.hval then -1
  else if k2.hval < k1.hval then 1
  else 0

/-- The sign of C memcmp over the common length of the two byte lists:
-1 or 1 at the first differing byte, 0 when one list runs out first. -/
def memcmp_bytes : List Nat → List Nat → Int
  | [], _ => 0
  | _, [] => 0
  | a :: l1, b :: l2 =>
      if a < b then -1 else if b < a then 1 else memcmp_bytes l1 l2

/-- The name bytes of an index entry (empty for a NULL name). -/
def entry_name (e : IdxEntry) : List Nat := e.name.getD []

/-- Translation of namecmp (mkfs.ubifs.c): memcmp over the first
min(name_len1, name_len2) bytes; on a tie the shorter name is smaller, and
two names of equal length and equal bytes come back as 1 (the C
`(len1 < len2) ? -1 : 1` with len1 = len2). -/
def namecmp (e1 e2 : IdxEntry) : Int :=
  let clen := min e1.name_len e2.name_len
  let cmp := memcmp_bytes ((entry_name e1).take clen) ((entry_name e2).take clen)
  if cmp ≠ 0 then cmp
  else if e1.name_len < e2.name_len then -1 else 1

/-- Translation of cmp_idx (mkfs.ubifs.c): compare keys, break ties by
namecmp. -/
def cmp_idx (e1 e2 : IdxEntry) : Int :=
  let cmp := keys_cmp e1.key e2.key
  if cmp ≠ 0 then cmp else namecmp e1 e2

/-- Modelled from the spec: qsort over the comparator, as a comparison
sort: insert each entry before the first strictly-greater element. -/
def ordered_insert_idx (e : IdxEntry) : List IdxEntry → List IdxEntry
  | [] => [e]
  | x :: rest =>
      if cmp_idx e x < 0 then e :: x :: rest else x :: ordered_insert_idx e rest

/-- Modelled from the spec: the sort write_index applies to the
materialized pointer array. -/
def sort_idx (l : List IdxEntry) : List IdxEntry :=
  l.foldr ordered_insert_idx []

/-- An index entry is well formed when its stored name length is the length
of its name bytes, as add_node records them. -/
def EntryWF (e : IdxEntry) : Prop := e.name_len = (entry_name e).length

/-- The specification-side strict order cmp_idx realizes: by key as the
numeric triple, ties by lexicographic comparison of the raw name bytes. -/
def keyLt (k1 k2 : UbifsKey) : Prop :=
  k1.inum < k2.inum ∨
    (k1.inum = k2.inum ∧
      (keyTypeIdx k1.ktype < keyTypeIdx k2.ktype ∨
        (keyTypeIdx k1.ktype = keyTypeIdx k2.ktype ∧ k1.hval < k2.hval)))

/-- The full strict order on index entries: key first, name bytes second. -/
def idxLt (e1 e2 : IdxEntry) : Prop :=
  keyLt e1.key e2.key ∨
    (e1.key = e2.key ∧ List.Lex (· < ·) (entry_name e1) (entry_name e2))

/-- keyTypeIdx is injective. -/
theorem keyTypeIdx_inj : ∀ a b : KeyType, keyTypeIdx a = keyTypeIdx b → a = b := by
  intro a b h
  cases a <;> cases b <;> first | rfl | simp [keyTypeIdx] at h

/-- keys_cmp is negative exactly on keyLt. -/
theorem keys_cmp_lt_iff (k1 k2 : UbifsKey) :
    keys_cmp k1 k2 < 0 ↔ keyLt k1 k2 := by
  unfold keys_cmp keyLt
  split_ifs <;> simp_all <;> omega

/-- keys_cmp is zero exactly on equal keys. -/
theorem keys_cmp_eq_zero_iff (k1 k2 : UbifsKey) :
    keys_cmp k1 k2 = 0 ↔ k1 = k2 := by
  cases k1 with
  | mk i1 t1 v1 =>
    cases k2 with
    | mk i2 t2 v2 =>
      unfold keys_cmp
      simp only [UbifsKey.mk.injEq]
      split_ifs with h1 h2 h3 h4 h5 h6
      · constructor
        · intro h
          exfalso
          exact h
        · rintro ⟨rfl, -, -⟩
          exfalso
          omega
      · constructor
        · intro h
          exfalso
          omega
        · rintro ⟨rfl, -, -⟩
          exfalso
          omega
      · constructor
        · intro h
          exfalso
          exact h
        · rintro ⟨-, rfl, -⟩
          exfalso
          omega
      · constructor
        · intro h
          exfalso
          omega
        · rintro ⟨-, rfl, -⟩
          exfalso
          omega
      · constructor
        · intro h
          exfalso
          exact h
        · rintro ⟨-, -, rfl⟩
          exfalso
          omega
      · constructor
        · intro h
          exfalso
          omega
        · rintro ⟨-, -, rfl⟩
          exfalso
          omega
      · constructor
        · intro h
          refine ⟨by omega, keyTypeIdx_inj _ _ (by omega), by omega⟩
        · intro h
          rfl

/-- memcmp_bytes of equal lists is zero. -/
theorem memcmp_bytes_self (l : List Nat) : memcmp_bytes l l = 0 := by
  induction l with
  | nil => rfl
  | cons a rest ih => simp [memcmp_bytes, ih]

/-- Truncating both lists to their common length first does not change
memcmp_bytes. -/
theorem memcmp_bytes_take (l1 l2 : List Nat) :
    memcmp_bytes (l1.take (min l1.length l2.length))
      (l2.take (min l1.length l2.length)) = memcmp_bytes l1 l2 := by
  induction l1 generalizing l2 with
  | nil => simp [memcmp_bytes]
  | cons a r1 ih =>
      cases l2 with
      | nil => simp [memcmp_bytes]
      | cons b r2 =>
          rw [List.length_cons, List.length_cons, Nat.succ_min_succ,
            List.take_succ_cons, List.take_succ_cons]
          simp only [memcmp_bytes]
          rw [ih]

/-- memcmp_bytes realizes the lexicographic byte order: a list is
lexicographically smaller exactly when the first byte difference is
negative, or there is no difference over the common length and the list is
shorter. -/
theorem memcmp_bytes_lex (l1 l2 : List Nat) :
    (memcmp_bytes l1 l2 < 0 ∨
      (memcmp_bytes l1 l2 = 0 ∧ l1.length < l2.length)) ↔
    List.Lex (· < ·) l1 l2 := by
  induction l1 generalizing l2 with
  | nil =>
      cases l2 with
      | nil => simp [memcmp_bytes]
      | cons b r2 =>
          simp only [memcmp_bytes, List.length_nil, List.length_cons]
          constructor
          · intro
            exact List.Lex.nil
          · intro
            exact Or.inr ⟨by simp, by omega⟩
  | cons a r1 ih =>
      cases l2 with
      | nil => simp [memcmp_bytes]
      | cons b r2 =>
          rcases lt_trichotomy a b with hab | rfl | hab
          · simp only [memcmp_bytes, hab, if_true]
            constructor
            · intro
              exact List.Lex.rel hab
            · intro
              exact Or.inl (by omega)
          · have hirr : ¬ a < a := lt_irrefl a
            simp only [memcmp_bytes, hirr, if_false, List.length_cons]
            rw [List.Lex.cons_iff]
            rw [← ih r2]
            constructor
            · rintro (h | ⟨h, hl⟩)
              · exact Or.inl h
              · exact Or.inr ⟨h, by omega⟩
            · rintro (h | ⟨h, hl⟩)
              · exact Or.inl h
              · exact Or.inr ⟨h, by omega⟩
          · have hnab : ¬ a < b := by omega
            simp only [memcmp_bytes, hnab, if_false, hab, if_true]
            constructor
            · rintro (h | ⟨h, -⟩) <;> omega
            · intro hc
              cases hc with
              | cons h => omega
              | rel h => omega

/-- For well-formed entries, namecmp is negative exactly on the
lexicographic byte order of the names. -/
theorem namecmp_lt_iff (e1 e2 : IdxEntry) (h1 : EntryWF e1) (h2 : EntryWF e2) :
    namecmp e1 e2 < 0 ↔
      List.Lex (· < ·) (entry_name e1) (entry_name e2) := by
  unfold EntryWF at h1 h2
  simp only [namecmp, h1, h2]
  rw [memcmp_bytes_take, ← memcmp_bytes_lex]
  by_cases hc : memcmp_bytes (entry_name e1) (entry_name e2) = 0
  · simp [hc]
    split_ifs with h <;> simp [h]
  · have : ¬ (memcmp_bytes (entry_name e1) (entry_name e2) = 0 ∧
        (entry_name e1).length < (entry_name e2).length) := by
      rintro ⟨h, -⟩
      exact hc h
    simp [hc, this]

/-- Two entries with equal names and equal stored name lengths compare as 1
under namecmp: the comparator calls neither of them smaller and never
reports the equality. -/
theorem namecmp_eq_one (e1 e2 : IdxEntry) (hn : e1.name = e2.name)
    (hl : e1.name_len = e2.name_len) : namecmp e1 e2 = 1 := by
  have hen : entry_name e1 = entry_name e2 := by
    unfold entry_name
    rw [hn]
  simp only [namecmp, hen, hl]
  rw [memcmp_bytes_self]
  simp

/-- For well-formed entries, cmp_idx is negative exactly on the (key, name)
lexicographic order idxLt. -/
theorem cmp_idx_lt_iff (e1 e2 : IdxEntry) (h1 : EntryWF e1) (h2 : EntryWF e2) :
    cmp_idx e1 e2 < 0 ↔ idxLt e1 e2 := by
  unfold cmp_idx idxLt
  by_cases hz : keys_cmp e1.key e2.key = 0
  · have hkeq : e1.key = e2.key := (keys_cmp_eq_zero_iff _ _).mp hz
    have hirr : ¬ keyLt e2.key e2.key := by
      unfold keyLt
      omega
    simp only [hz, ne_eq, not_true_eq_false, if_false,
      namecmp_lt_iff e1 e2 h1 h2]
    simp [hirr, hkeq]
  · have hkne : e1.key ≠ e2.key := fun hc =>
      hz ((keys_cmp_eq_zero_iff _ _).mpr hc)
    simp only [hz, ne_eq, not_false_eq_true, if_true,
      keys_cmp_lt_iff]
    simp [hkne]

/-- keyLt is transitive. -/
theorem keyLt_trans {k1 k2 k3 : UbifsKey} (h1 : keyLt k1 k2)
    (h2 : keyLt k2 k3) : keyLt k1 k3 := by
  unfold keyLt at *
  omega

/-- Distinct keys are comparable under keyLt. -/
theorem keyLt_connex (k1 k2 : UbifsKey) (h : k1 ≠ k2) :
    keyLt k1 k2 ∨ keyLt k2 k1 := by
  rcases k1 with ⟨i1, t1, v1⟩
  rcases k2 with ⟨i2, t2, v2⟩
  by_contra hc
  push_neg at hc
  unfold keyLt at hc
  simp only at hc
  apply h
  have hi : i1 = i2 := by omega
  have htx : keyTypeIdx t1 = keyTypeIdx t2 := by omega
  have hv : v1 = v2 := by omega
  simp [hi, hv, keyTypeIdx_inj _ _ htx]

/-- The lexicographic order on byte lists is transitive. -/
theorem lex_lt_trans : ∀ {l1 l2 l3 : List Nat}, List.Lex (· < ·) l1 l2 →
    List.Lex (· < ·) l2 l3 → List.Lex (· < ·) l1 l3
  | _, _, _, .nil, .cons _ => .nil
  | _, _, _, .nil, .rel _ => .nil
  | _, _, _, .cons h, .cons h2 => .cons (lex_lt_trans h h2)
  | _, _, _, .cons _, .rel h2 => .rel h2
  | _, _, _, .rel h, .cons _ => .rel h
  | _, _, _, .rel h, .rel h2 => .rel (h.trans h2)

/-- idxLt is transitive. -/
theorem idxLt_trans {e1 e2 e3 : IdxEntry} (h1 : idxLt e1 e2)
    (h2 : idxLt e2 e3) : idxLt e1 e3 := by
  unfold idxLt at *
  rcases h1 with h1 | ⟨hk1, hn1⟩
  · rcases h2 with h2 | ⟨hk2, hn2⟩
    · exact Or.inl (keyLt_trans h1 h2)
    · exact Or.inl (hk2 ▸ h1)
  · rcases h2 with h2 | ⟨hk2, hn2⟩
    · exact Or.inl (hk1 ▸ h2)
    · exact Or.inr ⟨hk1.trans hk2, lex_lt_trans hn1 hn2⟩

/-- The lexicographic order on byte lists is trichotomous. -/
theorem lex_lt_trichotomy : ∀ (l1 l2 : List Nat),
    List.Lex (· < ·) l1 l2 ∨ l1 = l2 ∨ List.Lex (· < ·) l2 l1
  | [], [] => Or.inr (Or.inl rfl)
  | [], _ :: _ => Or.inl .nil
  | _ :: _, [] => Or.inr (Or.inr .nil)
  | a :: l1, b :: l2 => by
      rcases lt_trichotomy a b with h | rfl | h
      · exact Or.inl (.rel h)
      · rcases lex_lt_trichotomy l1 l2 with h | h | h
        · exact Or.inl (.cons h)
        · exact Or.inr (Or.inl (by rw [h]))
        · exact Or.inr (Or.inr (.cons h))
      · exact Or.inr (Or.inr (.rel h))

/-- Entries whose (key, name-bytes) pairs differ are comparable under
idxLt. -/
theorem idxLt_connex (e1 e2 : IdxEntry)
    (h : (e1.key, entry_name e1) ≠ (e2.key, entry_name e2)) :
    idxLt e1 e2 ∨ idxLt e2 e1 := by
  unfold idxLt
  by_cases hk : e1.key = e2.key
  · have hn : entry_name e1 ≠ entry_name e2 := by
      intro hc
      exact h (by rw [hk, hc])
    rcases lex_lt_trichotomy (entry_name e1) (entry_name e2)
        with hlt | heq | hgt
    · exact Or.inl (Or.inr ⟨hk, hlt⟩)
    · exact absurd heq hn
    · exact Or.inr (Or.inr ⟨hk.symm, hgt⟩)
  · rcases keyLt_connex e1.key e2.key hk with hlt | hlt
    · exact Or.inl (Or.inl hlt)
    · exact Or.inr (Or.inl hlt)

/-- Inserting with ordered_insert_idx permutes. -/
theorem ordered_insert_idx_perm (e : IdxEntry) (l : List IdxEntry) :
    List.Perm (ordered_insert_idx e l) (e :: l) := by
  induction l with
  | nil => exact List.Perm.refl _
  | cons x rest ih =>
      by_cases h : cmp_idx e x < 0
      · simp [ordered_insert_idx, h]
      · simp only [ordered_insert_idx, h, if_false]
        exact (ih.cons x).trans (List.Perm.swap e x rest)

/-- sort_idx permutes its input. -/
theorem sort_idx_perm (l : List IdxEntry) : List.Perm (sort_idx l) l := by
  induction l with
  | nil => exact List.Perm.refl _
  | cons x rest ih =>
      exact (ordered_insert_idx_perm x (sort_idx rest)).trans (ih.cons x)

/-- Inserting an entry whose (key, name) pair differs from every element of
a sorted list keeps the list sorted under cmp_idx. -/
theorem ordered_insert_idx_pairwise (e : IdxEntry) (l : List IdxEntry)
    (hwe : EntryWF e) (hwl : ∀ x ∈ l, EntryWF x)
    (hne : ∀ x ∈ l, (e.key, entry_name e) ≠ (x.key, entry_name x))
    (hs : l.Pairwise fun a b => cmp_idx a b < 0) :
    (ordered_insert_idx e l).Pairwise fun a b => cmp_idx a b < 0 := by
  induction l with
  | nil => simp [ordered_insert_idx]
  | cons x rest ih =>
      rcases List.pairwise_cons.mp hs with ⟨hx, hrest⟩
      have hwx : EntryWF x := hwl x (List.mem_cons_self _ _)
      by_cases h : cmp_idx e x < 0
      · simp only [ordered_insert_idx, h, if_true]
        refine List.Pairwise.cons ?_ hs
        intro y hy
        rcases List.mem_cons.mp hy with rfl | hy
        · exact h
        · have hwy : EntryWF y := hwl y (List.mem_cons_of_mem _ hy)
          have h1 : idxLt e x := (cmp_idx_lt_iff e x hwe hwx).mp h
          have h2 : idxLt x y := (cmp_idx_lt_iff x y hwx hwy).mp (hx y hy)
          exact (cmp_idx_lt_iff e y hwe hwy).mpr (idxLt_trans h1 h2)
      · simp only [ordered_insert_idx, h, if_false]
        refine List.Pairwise.cons ?_
          (ih (fun z hz => hwl z (List.mem_cons_of_mem _ hz))
              (fun z hz => hne z (List.mem_cons_of_mem _ hz)) hrest)
        intro y hy
        rw [(ordered_insert_idx_perm e rest).mem_iff] at hy
        rcases List.mem_cons.mp hy with rfl | hy
        · rcases idxLt_connex y x (hne x (List.mem_cons_self _ _))
              with hlt | hlt
          · exact absurd ((cmp_idx_lt_iff y x hwe hwx).mpr hlt) h
          · exact (cmp_idx_lt_iff x y hwx hwe).mpr hlt
        · exact hx y hy

/-- With pairwise-distinct (key, name) pairs and well-formed entries,
sort_idx produces a list sorted strictly by cmp_idx. -/
theorem sort_idx_pairwise (l : List IdxEntry)
    (hwl : ∀ x ∈ l, EntryWF x)
    (hnd : (l.map fun e => (e.key, entry_name e)).Nodup) :
    (sort_idx l).Pairwise fun a b => cmp_idx a b < 0 := by
  induction l with
  | nil => simp [sort_idx]
  | cons x rest ih =>
      rw [List.map_cons, List.nodup_cons] at hnd
      show (ordered_insert_idx x (sort_idx rest)).Pairwise _
      apply ordered_insert_idx_pairwise
      · exact hwl x (List.mem_cons_self _ _)
      · intro z hz
        exact hwl z (List.mem_cons_of_mem _
          ((sort_idx_perm rest).mem_iff.mp hz))
      · intro z hz hc
        apply hnd.1
        rw [hc]
        exact List.mem_map_of_mem _ ((sort_idx_perm rest).mem_iff.mp hz)
      · exact ih (fun z hz => hwl z (List.mem_cons_of_mem _ hz)) hnd.2

/-! ## Claim C2: materialization, sort order, and duplicate handling -/

/-- A dentry index entry used in the duplicate counterexample. -/
def idxDupA : IdxEntry := ⟨⟨1, .dent_key, 5⟩, some [97], 1, 3, 0, 64⟩

/-- A second entry with the same key and the same name bytes as idxDupA but
a different on-flash position. -/
def idxDupB : IdxEntry := ⟨⟨1, .dent_key, 5⟩, some [97], 1, 7, 8, 64⟩

/-- C2, counterexample.  The claim states that two entries with equal keys
and equal names are detected and signalled as corruption.  The code has no
such check: namecmp ends in `(len1 < len2) ? -1 : 1`, so for two entries
with equal key and byte-identical names of equal length the comparator
returns 1 in BOTH orders — each is reported strictly greater than the other
— and the sort simply returns both entries (here swapping them, since each
compares greater), signalling nothing. -/
theorem cmp_idx_duplicate_counterexample :
    cmp_idx idxDupA idxDupB = 1 ∧ cmp_idx idxDupB idxDupA = 1 ∧
    sort_idx [idxDupA, idxDupB] = [idxDupB, idxDupA] := by
  refine ⟨by decide, by decide, by decide⟩

/-- C2, amended claim: the index leaf list is materialized into an array
and sorted with cmp_idx, which realizes exactly the (key, name-bytes)
lexicographic order — entries with equal keys are ordered by lexicographic
comparison of their raw name bytes — and for inputs with pairwise-distinct
(key, name) pairs the sort returns the input sorted strictly in that order;
but two entries with both equal keys and equal names are NOT detected: the
comparator calls each strictly greater than the other (returns 1 either
way) and no corruption is signalled. -/
theorem write_index_sort_order :
    (∀ e1 e2 : IdxEntry, EntryWF e1 → EntryWF e2 →
      (cmp_idx e1 e2 < 0 ↔ idxLt e1 e2)) ∧
    (∀ e1 e2 : IdxEntry, e1.key = e2.key → e1.name = e2.name →
      e1.name_len = e2.name_len →
      cmp_idx e1 e2 = 1 ∧ cmp_idx e2 e1 = 1) ∧
    (∀ l : List IdxEntry, (∀ x ∈ l, EntryWF x) →
      (l.map fun e => (e.key, entry_name e)).Nodup →
      List.Perm (sort_idx l) l ∧
        (sort_idx l).Pairwise fun a b => cmp_idx a b < 0) := by
  refine ⟨cmp_idx_lt_iff, ?_, ?_⟩
  · intro e1 e2 hk hn hl
    have hz1 : keys_cmp e1.key e2.key = 0 := (keys_cmp_eq_zero_iff _ _).mpr hk
    have hz2 : keys_cmp e2.key e1.key = 0 :=
      (keys_cmp_eq_zero_iff _ _).mpr hk.symm
    constructor
    · unfold cmp_idx
      simp only [hz1, ne_eq, not_true_eq_false, if_false]
      exact namecmp_eq_one e1 e2 hn hl
    · unfold cmp_idx
      simp only [hz2, ne_eq, not_true_eq_false, if_false]
      exact namecmp_eq_one e2 e1 hn.symm hl.symm
  · intro l hwl hnd
    exact ⟨sort_idx_perm l, sort_idx_pairwise l hwl hnd⟩

/-- C2, witness: the amended theorem applied to two concrete inode entries
in reversed order: the hypotheses hold, the sort swaps them back into key
order, and the comparator agrees with idxLt on them. -/
theorem write_index_sort_order_witness :
    (∀ x ∈ [idxDupB, idxDupA], EntryWF x) ∧
    (idxDupA.key = idxDupB.key ∧ idxDupA.name = idxDupB.name ∧
      idxDupA.name_len = idxDupB.name_len) ∧
    (cmp_idx idxDupA idxDupB = 1 ∧ cmp_idx idxDupB idxDupA = 1) ∧
    (EntryWF idxDupA ∧ (cmp_idx idxDupA idxDupA < 0 ↔ idxLt idxDupA idxDupA)) ∧
    (List.Perm (sort_idx [idxDupA]) [idxDupA] ∧
      (sort_idx [idxDupA]).Pairwise fun a b => cmp_idx a b < 0) := by
  refine ⟨?_, ⟨rfl, rfl, rfl⟩, ?_, ?_, ?_⟩
  · intro x hx
    rcases List.mem_cons.mp hx with rfl | hx
    · rfl
    · rcases List.mem_cons.mp hx with rfl | hx
      · rfl
      · exact absurd hx (List.not_mem_nil x)
  · exact write_index_sort_order.2.1 idxDupA idxDupB rfl rfl rfl
  · exact ⟨rfl, write_index_sort_order.1 idxDupA idxDupA rfl rfl⟩
  · refine write_index_sort_order.2.2 [idxDupA] ?_ (by decide)
    intro x hx
    rcases List.mem_cons.mp hx with rfl | hx
    · rfl
    · exact absurd hx (List.not_mem_nil x)

/-! ## The master node (mkfs.ubifs.c: write_node, write_master)

write_master fills a struct ubifs_mst_node and writes it twice through
write_node, once at UBIFS_MST_LNUM and once at UBIFS_MST_LNUM + 1.  Each
write_node call runs ubifs_prepare_node on the buffer.  ubifs_prepare_node
lives in libubifs (not among the analysed sources) and is modelled from the
spec: it fills the common header, assigns sqnum = ++max_sqnum, and computes
the node CRC-32 (kernel polynomial 0xEDB88320, reflected, initial value
0xFFFFFFFF) over the node excluding the magic/CRC prefix.  The on-flash
serialization is little-endian throughout; the tail of the LEB beyond the
node is a pure fill determined by the geometry (modelled from the spec:
padded with 0xFF up to leb_size). -/

/-- Little-endian 16-bit serialization. -/
def le16 (n : Nat) : List Nat := [n % 256, n / 2 ^ 8 % 256]

/-- Little-endian 32-bit serialization. -/
def le32 (n : Nat) : List Nat :=
  [n % 256, n / 2 ^ 8 % 256, n / 2 ^ 16 % 256, n / 2 ^ 24 % 256]

/-- Little-endian 64-bit serialization. -/
def le64 (n : Nat) : List Nat :=
  [n % 256, n / 2 ^ 8 % 256, n / 2 ^ 16 % 256, n / 2 ^ 24 % 256,
   n / 2 ^ 32 % 256, n / 2 ^ 40 % 256, n / 2 ^ 48 % 256, n / 2 ^ 56 % 256]

/-- Modelled from the spec: one byte step of the reflected CRC-32 with
polynomial 0xEDB88320. -/
def crc32_step (crc b : Nat) : Nat :=
  (List.range 8).foldl
    (fun c _ => if c % 2 = 1 then c / 2 ^^^ 0xEDB88320 else c / 2)
    (crc ^^^ b % 256)

/-- Modelled from the spec: CRC-32 of a byte list, initial value 0xFFFFFFFF
(UBIFS_CRC32_INIT), no final inversion, as the UBIFS node CRC uses it. -/
def crc32 (bytes : List Nat) : Nat := bytes.foldl crc32_step 0xFFFFFFFF

/-- The master node type code, following the node-type enumeration of the
spec (the on-flash media header is not among the analysed sources). -/
def UBIFS_MST_NODE : Nat := 5

/-- The common node header (struct ubifs_ch): magic, crc, sqnum, len,
node_type, group_type, 2 padding bytes. -/
structure UbifsCh where
  magic : Nat
  crc : Nat
  sqnum : Nat
  len : Nat
  node_type : Nat
  group_type : Nat
deriving Repr, DecidableEq

/-- Serialization of the common header: 24 bytes, little-endian. -/
def serializeCh (ch : UbifsCh) : List Nat :=
  le32 ch.magic ++ le32 ch.crc ++ le64 ch.sqnum ++ le32 ch.len ++
    [ch.node_type % 256, ch.group_type % 256, 0, 0]

/-- The fields of struct ubifs_mst_node that write_master fills (all other
bytes of the 512-byte node are zero). -/
structure MstNodeBody where
  highest_inum : Nat
  cmt_no : Nat
  flags : Nat
  log_lnum : Nat
  root_lnum : Nat
  root_offs : Nat
  root_len : Nat
  gc_lnum : Nat
  ihead_lnum : Nat
  ihead_offs : Nat
  index_size : Nat
  total_free : Nat
  total_dirty : Nat
  total_used : Nat
  total_dead : Nat
  total_dark : Nat
  lpt_lnum : Nat
  lpt_offs : Nat
  nhead_lnum : Nat
  nhead_offs : Nat
  ltab_lnum : Nat
  ltab_offs : Nat
  lsave_lnum : Nat
  lsave_offs : Nat
  lscan_lnum : Nat
  empty_lebs : Nat
  idx_lebs : Nat
  leb_cnt : Nat
  hash_root_idx : List Nat
  hash_lpt : List Nat
  hmac : List Nat
deriving Repr, DecidableEq

/-- Serialization of the master-node payload after the common header:
488 bytes in the on-flash field order, ending in the three 64-byte hash
slots and 152 padding bytes. -/
def serializeMstBody (m : MstNodeBody) : List Nat :=
  le64 m.highest_inum ++ le64 m.cmt_no ++ le32 m.flags ++ le32 m.log_lnum ++
  le32 m.root_lnum ++ le32 m.root_offs ++ le32 m.root_len ++ le32 m.gc_lnum ++
  le32 m.ihead_lnum ++ le32 m.ihead_offs ++ le64 m.index_size ++
  le64 m.total_free ++ le64 m.total_dirty ++ le64 m.total_used ++
  le64 m.total_dead ++ le64 m.total_dark ++ le32 m.lpt_lnum ++
  le32 m.lpt_offs ++ le32 m.nhead_lnum ++ le32 m.nhead_offs ++
  le32 m.ltab_lnum ++ le32 m.ltab_offs ++ le32 m.lsave_lnum ++
  le32 m.lsave_offs ++ le32 m.lscan_lnum ++ le32 m.empty_lebs ++
  le32 m.idx_lebs ++ le32 m.leb_cnt ++
  m.hash_root_idx.take 64 ++ m.hash_lpt.take 64 ++ m.hmac.take 64 ++
  List.replicate 152 0

/-- The CRC ubifs_prepare_node stores for a master node with the given
payload: CRC-32 over the serialized node bytes past the 8-byte magic/CRC
prefix (the sqnum onward), with the CRC field itself excluded. -/
def mst_crc (body : MstNodeBody) (sqnum : Nat) : Nat :=
  crc32 ((serializeCh
    { magic := UBIFS_NODE_MAGIC, crc := 0, sqnum := sqnum,
      len := UBIFS_MST_NODE_SZ, node_type := UBIFS_MST_NODE,
      group_type := 0 } ++ serializeMstBody body).drop 8)

/-- The 0xFF fill of a written LEB past the node (modelled from the spec:
all written LEBs are padded to leb_size with 0xFF; the fill depends only on
the geometry and the node length). -/
def leb_fill (c : Geometry) (len : Nat) : List Nat :=
  List.replicate (c.leb_size - len) 0xFF

/-- Translation of write_node (mkfs.ubifs.c) applied to a master node:
prepare the node (header with fresh sqnum and CRC) and produce the full
LEB image. -/
def write_node_mst (c : Geometry) (body : MstNodeBody) (sqnum : Nat) :
    List Nat :=
  serializeCh
    { magic := UBIFS_NODE_MAGIC, crc := mst_crc body sqnum, sqnum := sqnum,
      len := UBIFS_MST_NODE_SZ, node_type := UBIFS_MST_NODE,
      group_type := 0 } ++
  serializeMstBody body ++ leb_fill c UBIFS_MST_NODE_SZ

/-- Translation of write_master (mkfs.ubifs.c): write the same master-node
payload twice, at UBIFS_MST_LNUM and UBIFS_MST_LNUM + 1; each write_node
call prepares the node again, so the first copy carries sqnum0 + 1 and the
second sqnum0 + 2 (sqnum0 being c->max_sqnum before the call). -/
def write_master (c : Geometry) (body : MstNodeBody) (sqnum0 : Nat) :
    List (Nat × List Nat) :=
  [(UBIFS_MST_LNUM, write_node_mst c body (sqnum0 + 1)),
   (UBIFS_MST_LNUM + 1, write_node_mst c body (sqnum0 + 2))]

/-- The serialized master LEB splits into magic, CRC, sqnum, and an
sqnum-independent tail. -/
def mst_tail (c : Geometry) (body : MstNodeBody) : List Nat :=
  le32 UBIFS_MST_NODE_SZ ++ [UBIFS_MST_NODE % 256, 0, 0, 0] ++
    serializeMstBody body ++ leb_fill c UBIFS_MST_NODE_SZ

/-- Decomposition of a written master LEB. -/
theorem write_node_mst_decomp (c : Geometry) (body : MstNodeBody)
    (sqnum : Nat) :
    write_node_mst c body sqnum =
      le32 UBIFS_NODE_MAGIC ++ le32 (mst_crc body sqnum) ++ le64 sqnum ++
        mst_tail c body := by
  simp [write_node_mst, serializeCh, mst_tail, List.append_assoc]

/-! ## Claim C1: the two master LEBs -/

/-- A concrete master-node payload for the counterexample (an empty-image
build: small counters, zero hashes). -/
def mstBody0 : MstNodeBody :=
  { highest_inum := 64, cmt_no := 0, flags := 0x20, log_lnum := 3,
    root_lnum := 30, root_offs := 0, root_len := 288, gc_lnum := 31,
    ihead_lnum := 30, ihead_offs := 2048, index_size := 288,
    total_free := 0, total_dirty := 0, total_used := 0, total_dead := 0,
    total_dark := 0, lpt_lnum := 8, lpt_offs := 0, nhead_lnum := 8,
    nhead_offs := 0, ltab_lnum := 8, ltab_offs := 64, lsave_lnum := 0,
    lsave_offs := 0, lscan_lnum := 12, empty_lebs := 1, idx_lebs := 1,
    leb_cnt := 32, hash_root_idx := List.replicate 64 0,
    hash_lpt := List.replicate 64 0, hmac := List.replicate 64 0 }

/-- C1, counterexample.  The claim states the two master LEBs are
byte-identical.  write_master writes at the claimed LEBs, but each of the
two write_node calls runs ubifs_prepare_node, which assigns a fresh
sequence number (sqnum0 + 1, then sqnum0 + 2), so the two LEB images differ
in the common header: already their 9th byte, the low byte of sqnum, is 1
in the first copy and 2 in the second. -/
theorem write_master_counterexample :
    (write_master ⟨2048, 8⟩ mstBody0 0).map Prod.fst =
      [UBIFS_MST_LNUM, UBIFS_MST_LNUM + 1] ∧
    write_node_mst ⟨2048, 8⟩ mstBody0 1 ≠ write_node_mst ⟨2048, 8⟩ mstBody0 2 := by
  constructor
  · rfl
  · intro h
    rw [write_node_mst_decomp, write_node_mst_decomp] at h
    simp only [le32, le64, List.cons_append, List.nil_append,
      List.cons.injEq] at h
    omega

/-- C1, amended claim: for every successful build, the finalizer writes the
master node twice, at LEBs UBIFS_MST_LNUM and UBIFS_MST_LNUM + 1, from the
same in-memory master node; the two resulting master LEBs agree on every
byte outside the common header's CRC and sqnum fields, the second copy's
sqnum is one greater than the first's, and consequently the two LEBs are
NOT byte-identical. -/
theorem write_master_two_lebs (c : Geometry) (body : MstNodeBody)
    (sqnum0 : Nat) :
    write_master c body sqnum0 =
      [(UBIFS_MST_LNUM, write_node_mst c body (sqnum0 + 1)),
       (UBIFS_MST_LNUM + 1, write_node_mst c body (sqnum0 + 2))] ∧
    (∃ crc1 crc2 rest,
      write_node_mst c body (sqnum0 + 1) =
        le32 UBIFS_NODE_MAGIC ++ le32 crc1 ++ le64 (sqnum0 + 1) ++ rest ∧
      write_node_mst c body (sqnum0 + 2) =
        le32 UBIFS_NODE_MAGIC ++ le32 crc2 ++ le64 (sqnum0 + 2) ++ rest) ∧
    write_node_mst c body (sqnum0 + 1) ≠ write_node_mst c body (sqnum0 + 2) := by
  refine ⟨rfl,
    ⟨mst_crc body (sqnum0 + 1), mst_crc body (sqnum0 + 2), mst_tail c body,
      write_node_mst_decomp c body (sqnum0 + 1),
      write_node_mst_decomp c body (sqnum0 + 2)⟩, ?_⟩
  intro h
  rw [write_node_mst_decomp, write_node_mst_decomp] at h
  simp only [le32, le64, List.cons_append, List.nil_append,
    List.cons.injEq] at h
  omega
